import Mathlib

/-!
Verification of the batch job orchestrator of the Etsy creator-studio app.

The development shallowly embeds:
* the result-bundle parser `parseProcessZip` and its `release` closure
  (lib/zip.ts), with browser object URLs modelled by an explicit allocator
  state (`UrlState`);
* the batch page orchestrator (the `BatchPage` component): job registry,
  validation, admission control (`startQueued` / `scheduleNext` with the
  `CONCURRENCY` ceiling and the `startingRef` idempotency guard), the
  progress-stream message handler, cancellation, removal, reset, and the
  per-job / bulk Etsy publish flows.

Modelling conventions:
* machine-level UI concerns (toasts, preview object URLs, blobs kept for
  download) are omitted; they do not feed back into the registry state;
* job ids and request-correlation ids are drawn from one fresh counter
  `nextId` in place of `crypto.randomUUID()`;
* the asynchronous settlement of a processing request is one atomic event.
  Inside it the source runs, in order: the status update, the `finally`
  clause (closing the stream and deleting the `startingRef` guard), and then
  the queued `scheduleNext` state updater, which reads `startingRef` at
  execution time (React 18 batches the updaters to the end of the
  synchronous continuation, after the `finally` block has run);
* network calls are modelled by their observable outcome: the remote abort
  is recorded in `abortCalls` and its success value is an explicit argument
  that the code discards (`.catch(() => {})`); publish outcomes are an
  explicit per-job argument;
* JSON decoding of the optional `texts` / `manifest` archive entries is
  abstracted to the raw embedded payload; no claim under verification
  depends on it.
-/

namespace CreatorStudio

/-- Step keys of the processing pipeline (ProgressPanel's StepKey union). -/
inductive StepKey
  | image
  | mockups
  | video
  | texts
  | zip
deriving DecidableEq, Repr

/-- String name of a step key, as used for Record keys in the source. -/
def stepKeyName : StepKey → String
  | .image => "image"
  | .mockups => "mockups"
  | .video => "video"
  | .texts => "texts"
  | .zip => "zip"

/-- Per-step progress state. -/
inductive StepState
  | pending
  | started
  | done
deriving DecidableEq, Repr

/-- Texts sub-options of the processing options. -/
structure TextsOptions where
  enabled : Bool
  title : Bool
  alt : Bool
  description : Bool
  tags : Bool
deriving DecidableEq, Repr

/-- Enhance sub-options of the processing options. -/
structure EnhanceOptions where
  enabled : Bool
  scale : Nat
deriving DecidableEq, Repr

/-- Processing options snapshot (OptionsPanel's Options type). -/
structure Options where
  dpi : Nat
  mockups : Bool
  video : Bool
  texts : TextsOptions
  enhance : EnhanceOptions
deriving DecidableEq, Repr

/-- Initial options of the batch page component state. -/
def defaultOptions : Options :=
  { dpi := 300, mockups := true, video := true
    texts := { enabled := true, title := true, alt := true, description := true, tags := true }
    enhance := { enabled := true, scale := 4 } }

/-- computeSteps from the batch page: base image stage first, optional stages
conditionally, packaging stage last. -/
def computeSteps (opts : Options) : List StepKey :=
  [StepKey.image]
    ++ (if opts.mockups then [StepKey.mockups] else [])
    ++ (if opts.video then [StepKey.video] else [])
    ++ (if opts.texts.enabled then [StepKey.texts] else [])
    ++ [StepKey.zip]

/-- JS-object update on a string-keyed record, as an association list: if the
key is present its value is replaced in place, otherwise the pair is appended
(JS objects never hold a key twice). -/
def recSet : List (String × StepState) → String → StepState → List (String × StepState)
  | [], k, v => [(k, v)]
  | p :: rest, k, v => if p.1 = k then (k, v) :: rest else p :: recSet rest k v

/-- JS-object lookup on a string-keyed record. -/
def recGet : List (String × StepState) → String → Option StepState
  | [], _ => none
  | p :: rest, k => if p.1 = k then some p.2 else recGet rest k

/-- Input file descriptor: the validated attributes of a dropped File. -/
structure FileDesc where
  name : String
  size : Nat
  type : String
deriving DecidableEq, Repr

/-- Accepted media types for submission. -/
def ACCEPTED_TYPES : List String := ["image/jpeg", "image/png", "image/webp"]

/-- Fixed byte ceiling for a submitted file (15 MB). -/
def MAX_BYTES : Nat := 15 * 1024 * 1024

/-- Concurrency ceiling of the batch orchestrator. -/
def CONCURRENCY : Nat := 3

/-- validate from the batch page: accepted-type check then max-size check,
returning the toast message on failure. -/
def validate (file : FileDesc) : Option String :=
  if ¬ ACCEPTED_TYPES.contains file.type then some "Types acceptés: JPG, PNG, WEBP."
  else if file.size > MAX_BYTES then some "Image trop lourde (max 15 Mo)."
  else none

/-! Browser object-URL allocator. `URL.createObjectURL` hands out a fresh
locally-addressable handle; `URL.revokeObjectURL` frees it and does nothing
when the handle is not (or no longer) registered. -/

/-- Allocator state for browser object URLs: a fresh counter and the set of
live handles. -/
structure UrlState where
  next : Nat
  live : List Nat
deriving DecidableEq, Repr

/-- URL.createObjectURL: returns a fresh handle and registers it. -/
def createObjectURL (s : UrlState) : Nat × UrlState :=
  (s.next, { next := s.next + 1, live := s.next :: s.live })

/-- URL.revokeObjectURL: frees the handle; a no-op if it is not live. -/
def revokeObjectURL (u : Nat) (s : UrlState) : UrlState :=
  { s with live := s.live.erase u }

/-- One entry of the result archive: path, directory flag, byte size of the
binary payload, and the raw text payload for JSON entries. -/
structure ZipEntry where
  path : String
  dir : Bool
  size : Nat
  text : String
deriving DecidableEq, Repr

/-- JSZip zip.file(path): the file (non-directory) entry at exactly that
path, if any. -/
def zipFile (zip : List ZipEntry) (p : String) : Option ZipEntry :=
  zip.find? (fun e => !e.dir && decide (e.path = p))

/-- One secondary (mockup) artifact of the parsed package. -/
structure Mockup where
  name : String
  url : Nat
  size : Nat
deriving DecidableEq, Repr

/-- ParsedPackage from lib/zip.ts. `urlsToRevoke` is the list captured by the
`release` closure; an artifact's `url` field is its object-URL handle. -/
structure ParsedPackage where
  processedImageUrl : Option Nat
  processedImageSize : Option Nat
  mockups : List Mockup
  videoUrl : Option Nat
  videoSize : Option Nat
  texts : Option String
  manifest : Option String
  urlsToRevoke : List Nat
deriving DecidableEq, Repr

/-- The package value before any entry is extracted. -/
def emptyPackage : ParsedPackage :=
  { processedImageUrl := none, processedImageSize := none, mockups := []
    videoUrl := none, videoSize := none, texts := none, manifest := none
    urlsToRevoke := [] }

/-- JS String.prototype.startsWith, stated on the character sequences so
that it evaluates by kernel reduction. -/
def strStartsWith (s pre : String) : Bool := pre.data.isPrefixOf s.data

/-- JS String.prototype.substring(n), on the character sequences. -/
def strDrop (s : String) (n : Nat) : String := String.mk (s.data.drop n)

/-- Mockups loop of parseProcessZip: walk every archive entry in order and
materialize each non-directory entry under mockups/ as an object URL. -/
def mockupLoop : List ZipEntry → ParsedPackage → UrlState → ParsedPackage × UrlState
  | [], out, s => (out, s)
  | e :: rest, out, s =>
    if !e.dir && strStartsWith e.path "mockups/" then
      let u := (createObjectURL s).1
      let s1 := (createObjectURL s).2
      mockupLoop rest
        { out with
          mockups :=
            out.mockups ++ [{ name := strDrop e.path "mockups/".length, url := u, size := e.size }]
          urlsToRevoke := out.urlsToRevoke ++ [u] } s1
    else mockupLoop rest out s

/-- Primary-image stage of parseProcessZip: the optional extraction of
image/processed.png into a fresh object URL. -/
def parseStepImage (zip : List ZipEntry) (s : UrlState) : ParsedPackage × UrlState :=
  match zipFile zip "image/processed.png" with
  | some e =>
    ({ emptyPackage with
       processedImageUrl := some (createObjectURL s).1
       processedImageSize := some e.size
       urlsToRevoke := [(createObjectURL s).1] }, (createObjectURL s).2)
  | none => (emptyPackage, s)

/-- Video stage of parseProcessZip: the optional extraction of
video/preview.mp4 into a fresh object URL. -/
def parseStepVideo (zip : List ZipEntry) (acc : ParsedPackage × UrlState) :
    ParsedPackage × UrlState :=
  match zipFile zip "video/preview.mp4" with
  | some e =>
    ({ acc.1 with
       videoUrl := some (createObjectURL acc.2).1
       videoSize := some e.size
       urlsToRevoke := acc.1.urlsToRevoke ++ [(createObjectURL acc.2).1] },
     (createObjectURL acc.2).2)
  | none => acc

/-- Texts stage of parseProcessZip: the optional texts/etsy_metadata.json
entry, its JSON decoding abstracted to the raw payload. -/
def parseStepTexts (zip : List ZipEntry) (acc : ParsedPackage × UrlState) :
    ParsedPackage × UrlState :=
  match zipFile zip "texts/etsy_metadata.json" with
  | some e => ({ acc.1 with texts := some e.text }, acc.2)
  | none => acc

/-- Manifest stage of parseProcessZip: the optional manifest.json entry. -/
def parseStepManifest (zip : List ZipEntry) (acc : ParsedPackage × UrlState) :
    ParsedPackage × UrlState :=
  match zipFile zip "manifest.json" with
  | some e => ({ acc.1 with manifest := some e.text }, acc.2)
  | none => acc

/-- parseProcessZip from lib/zip.ts, on a successfully decoded archive: the
optional primary image, then the mockups loop, then the optional video,
texts and manifest entries, in source order; each extraction is conditional
on the entry being present and a missing entry leaves its field empty. -/
def parseProcessZip (zip : List ZipEntry) (s : UrlState) : ParsedPackage × UrlState :=
  parseStepManifest zip
    (parseStepTexts zip
      (parseStepVideo zip
        (mockupLoop zip (parseStepImage zip s).1 (parseStepImage zip s).2)))

/-- The release closure of a parsed package: revoke every captured object
URL, in order. The captured list is not cleared, so a second call re-runs
the same revocations (each a platform no-op once the handle is gone). -/
def release (p : ParsedPackage) (s : UrlState) : UrlState :=
  p.urlsToRevoke.foldl (fun acc u => revokeObjectURL u acc) s

/-! The batch orchestrator (BatchPage component). -/

/-- Lifecycle status of a job. -/
inductive JobStatus
  | queued
  | running
  | done
  | error
  | cancelled
deriving DecidableEq, Repr

/-- Publish sub-status of a job. -/
inductive PubStatus
  | idle
  | pending
  | done
  | error
deriving DecidableEq, Repr

/-- Publish sub-state of a job. The source overwrites the whole object on
each transition, so absent fields reset to undefined. -/
structure PublishState where
  status : PubStatus
  listingId : Option String
  error : Option String
deriving DecidableEq, Repr

/-- Outcome of one publishDraftFromParsed call: a draft with an optional
listing id from the response JSON, or a thrown error message. -/
inductive PubOutcome
  | ok (listingId : Option String)
  | err (msg : String)
deriving DecidableEq, Repr

/-- Publish sub-state written by the settlement of one publish call. -/
def pubApply : PubOutcome → PublishState
  | .ok lid => { status := .done, listingId := lid, error := none }
  | .err e => { status := .error, listingId := none, error := some e }

/-- One job of the batch registry. `esOpen` models whether the job's
EventSource subscription is open; `rid` is the request-correlation id.
UI-only fields (preview URL, retained zip blob and filename) are omitted. -/
structure Job where
  id : Nat
  file : FileDesc
  status : JobStatus
  rid : Option Nat
  stepOrder : List StepKey
  stepStatus : List (String × StepState)
  esOpen : Bool
  result : Option ParsedPackage
  errMsg : Option String
  publish : PublishState
deriving DecidableEq, Repr

/-- Orchestrator state: the job registry, the `startingRef` idempotency
guard, the fresh-id counter standing in for crypto.randomUUID, the options
snapshot, and the log of issued remote abort and publish calls. -/
structure BatchState where
  jobs : List Job
  starting : List Nat
  nextId : Nat
  options : Options
  abortCalls : List Nat
  pubCalls : List Nat
deriving DecidableEq, Repr

/-- Initial component state. -/
def initState : BatchState :=
  { jobs := [], starting := [], nextId := 0, options := defaultOptions
    abortCalls := [], pubCalls := [] }

/-- Number of jobs currently running (the runningCount derived value). -/
def countRunning (jobs : List Job) : Nat :=
  (jobs.filter (fun j => decide (j.status = JobStatus.running))).length

/-- Number of jobs currently queued. -/
def countQueued (jobs : List Job) : Nat :=
  (jobs.filter (fun j => decide (j.status = JobStatus.queued))).length

/-- Initial stepStatus map of a job: every key of its stepOrder pending. -/
def initStepStatus (order : List StepKey) : List (String × StepState) :=
  order.foldl (fun m s => recSet m (stepKeyName s) .pending) []

/-- A freshly added job, as built by addFiles. -/
def mkJob (id : Nat) (f : FileDesc) (opts : Options) : Job :=
  { id := id, file := f, status := .queued, rid := none
    stepOrder := computeSteps opts
    stepStatus := initStepStatus (computeSteps opts)
    esOpen := false, result := none, errMsg := none
    publish := { status := .idle, listingId := none, error := none } }

/-- Handling of one dropped file inside addFiles: an invalid file only
raises a toast and adds nothing; a valid file is appended to the registry as
a queued job. -/
def addFile1 (st : BatchState) (f : FileDesc) : BatchState :=
  match validate f with
  | some _ => st
  | none =>
    { st with jobs := st.jobs ++ [mkJob st.nextId f st.options], nextId := st.nextId + 1 }

/-- addFiles: validate and append each dropped file in order. No admission
is attempted here. -/
def addFiles (st : BatchState) (list : List FileDesc) : BatchState :=
  list.foldl addFile1 st

/-- Registry map updating the job with the given id (the
`prev.map(j => j.id === id ? ... : j)` pattern of the source). -/
def updId (l : List Job) (i : Nat) (g : Job → Job) : List Job :=
  l.map (fun j => if j.id = i then g j else j)

/-- Guard of startJob: skip when the id is already in `startingRef`, or when
the job is found and its latest status is not queued. (When the id is not
found the source proceeds; the registry map below is then a no-op but the id
still enters the guard set.) -/
def startJobGuard (st : BatchState) (i : Nat) : Bool :=
  st.starting.contains i ||
    (match st.jobs.find? (fun j => decide (j.id = i)) with
     | some j => decide (j.status ≠ JobStatus.queued)
     | none => false)

/-- startJob: mark the job running, generate a fresh rid, optimistically set
the image step to started, open the progress stream, and record the id in
the `startingRef` guard. The processing request itself settles later as a
separate event. -/
def startJob (st : BatchState) (i : Nat) : BatchState :=
  if startJobGuard st i then st
  else
    { st with
      jobs := updId st.jobs i (fun j =>
        { j with
          status := .running
          rid := some st.nextId
          stepStatus :=
            if j.stepOrder.contains StepKey.image then recSet j.stepStatus "image" .started
            else j.stepStatus
          esOpen := true })
      starting := i :: st.starting
      nextId := st.nextId + 1 }

/-- Start each listed job in order. -/
def startJobs (st : BatchState) (ids : List Nat) : BatchState :=
  ids.foldl startJob st

/-- startQueued (the explicit start action): capacity is the ceiling minus
the larger of the running count and the guard-set size; start that many
queued jobs in FIFO order. -/
def startQueued (st : BatchState) : BatchState :=
  let running := countRunning st.jobs
  let active := max running st.starting.length
  let capacity := CONCURRENCY - active
  startJobs st
    (((st.jobs.filter (fun j => decide (j.status = JobStatus.queued))).take capacity).map Job.id)

/-- scheduleNext, invoked when a processing request settles: same admission
computation as startQueued. -/
def scheduleNext (st : BatchState) : BatchState :=
  let running := countRunning st.jobs
  let active := max running st.starting.length
  let capacity := CONCURRENCY - active
  startJobs st
    (((st.jobs.filter (fun j => decide (j.status = JobStatus.queued))).take capacity).map Job.id)

/-- Settlement of a successful processing request whose archive parsed to
`pkg`: store the result and mark the job done; the `finally` clause closes
the stream and clears the guard entry before the queued scheduleNext updater
runs. The auto-publish option is off (its default). -/
def settleSuccess (st : BatchState) (i : Nat) (pkg : ParsedPackage) : BatchState :=
  let st1 : BatchState :=
    { st with jobs := updId st.jobs i (fun j => { j with result := some pkg, status := .done }) }
  let st2 : BatchState :=
    { st1 with
      jobs := updId st1.jobs i (fun j => { j with esOpen := false })
      starting := st1.starting.filter (fun x => decide (x ≠ i)) }
  scheduleNext st2

/-- Settlement of a failed (non-abort) processing request: mark the job
error with the thrown message, then the same finally/scheduleNext sequence. -/
def settleError (st : BatchState) (i : Nat) (msg : String) : BatchState :=
  let st1 : BatchState :=
    { st with jobs := updId st.jobs i (fun j => { j with status := .error, errMsg := some msg }) }
  let st2 : BatchState :=
    { st1 with
      jobs := updId st1.jobs i (fun j => { j with esOpen := false })
      starting := st1.starting.filter (fun x => decide (x ≠ i)) }
  scheduleNext st2

/-- Settlement of a processing request rejected by cancellation (AbortError
or the 499 Cancelled path): mark cancelled (idempotent after a direct
cancel), then the same finally/scheduleNext sequence. -/
def settleCancel (st : BatchState) (i : Nat) : BatchState :=
  let st1 : BatchState :=
    { st with jobs := updId st.jobs i (fun j => { j with status := .cancelled }) }
  let st2 : BatchState :=
    { st1 with
      jobs := updId st1.jobs i (fun j => { j with esOpen := false })
      starting := st1.starting.filter (fun x => decide (x ≠ i)) }
  scheduleNext st2

/-- abortProcess (lib/api.ts): fire-and-forget POST whose network failure is
swallowed; nothing of its outcome reaches the caller. -/
def abortProcess (rid : Nat) (success : Bool) : List Nat :=
  let _ := success
  [rid]

/-- cancelJob: only a running job with a rid is cancelled; the remote abort
call is issued best-effort (its success flag is discarded by the source's
catch), the stream is closed, the guard entry cleared, and the status set to
cancelled. -/
def cancelJob (st : BatchState) (i : Nat) (abortOk : Bool) : BatchState :=
  match st.jobs.find? (fun j => decide (j.id = i)) with
  | none => st
  | some j =>
    if j.status = JobStatus.running then
      match j.rid with
      | none => st
      | some r =>
        { st with
          abortCalls := st.abortCalls ++ abortProcess r abortOk
          jobs := updId st.jobs i (fun x => { x with status := .cancelled, esOpen := false })
          starting := st.starting.filter (fun x => decide (x ≠ i)) }
    else st

/-- removeJob: a running job with a rid first gets a best-effort remote
abort and its stream closed; the job is then dropped from the registry and
its guard entry cleared. Resource release of the result acts on the
separately modelled URL allocator. -/
def removeJob (st : BatchState) (i : Nat) (abortOk : Bool) : BatchState :=
  let aborts :=
    match st.jobs.find? (fun j => decide (j.id = i)) with
    | some j =>
      if j.status = JobStatus.running then
        match j.rid with
        | some r => abortProcess r abortOk
        | none => []
      else []
    | none => []
  { st with
    abortCalls := st.abortCalls ++ aborts
    jobs := st.jobs.filter (fun x => decide (x.id ≠ i))
    starting := st.starting.filter (fun x => decide (x ≠ i)) }

/-- resetAll: abort every running job best-effort, drop every job, clear the
guard set and restore the default options. -/
def resetAll (st : BatchState) : BatchState :=
  { jobs := []
    starting := []
    nextId := st.nextId
    options := defaultOptions
    abortCalls :=
      st.abortCalls ++
        (st.jobs.filter (fun j => decide (j.status = JobStatus.running))).filterMap Job.rid
    pubCalls := st.pubCalls }

/-- Progress-stream step message for the stream of job `i` (batch page
handler): when the payload carries a truthy step and status, write
stepStatus[step] = status — with no check that the key belongs to the job's
stepOrder. -/
def onStreamStep (st : BatchState) (i : Nat) (step : String) (status : StepState) : BatchState :=
  if step = "" then st
  else
    { st with jobs := updId st.jobs i (fun j => { j with stepStatus := recSet j.stepStatus step status }) }

/-- Progress-stream done message (batch page handler): close the stream and
nothing else. -/
def onStreamDone (st : BatchState) (i : Nat) : BatchState :=
  { st with jobs := updId st.jobs i (fun j => { j with esOpen := false }) }

/-- The done branch of the single-image page's stream handler
(creator-studio page): force every stepOrder key still not done to done
before closing the stream. -/
def forceAllDone (steps : List StepKey) (m : List (String × StepState)) :
    List (String × StepState) :=
  steps.foldl
    (fun next s =>
      if recGet next (stepKeyName s) ≠ some StepState.done then
        recSet next (stepKeyName s) .done
      else next)
    m

/-- The user-invocable per-job publish action: the JobCard renders the Etsy
button only on a done job and disables it when the result is missing or a
publish is already pending; the click handler then sets the publish
sub-state to pending and issues the external publish call. -/
def publishOneStart (st : BatchState) (i : Nat) : BatchState :=
  match st.jobs.find? (fun j => decide (j.id = i)) with
  | none => st
  | some j =>
    if j.status = JobStatus.done ∧ j.result.isSome ∧ j.publish.status ≠ PubStatus.pending then
      { st with
        jobs := updId st.jobs i (fun x =>
          { x with publish := { status := .pending, listingId := none, error := none } })
        pubCalls := st.pubCalls ++ [i] }
    else st

/-- Settlement of the per-job publish call issued by publishOneStart. -/
def publishOneSettle (st : BatchState) (i : Nat) (outcome : PubOutcome) : BatchState :=
  { st with jobs := updId st.jobs i (fun x => { x with publish := pubApply outcome }) }

/-- One settlement of the bulk-publish fan-out: write the member's publish
sub-state from its own outcome, record the external call and bump the
matching counter. -/
def bulkStep (outcome : Nat → PubOutcome) (acc : BatchState × Nat × Nat) (j : Job) :
    BatchState × Nat × Nat :=
  let st2 : BatchState :=
    { acc.1 with
      jobs := updId acc.1.jobs j.id (fun x => { x with publish := pubApply (outcome j.id) })
      pubCalls := acc.1.pubCalls ++ [j.id] }
  match outcome j.id with
  | .ok _ => (st2, acc.2.1 + 1, acc.2.2)
  | .err _ => (st2, acc.2.1, acc.2.2 + 1)

/-- bulkPublishDrafts: over the selected jobs holding a result, and when the
marketplace session is connected, set each to pending and settle each member
independently with its own outcome, aggregating success and failure counts.
Returns the final state with the (ok, ko) counters. -/
def bulkPublishDrafts (st : BatchState) (selected : List Nat) (connected : Bool)
    (outcome : Nat → PubOutcome) : BatchState × Nat × Nat :=
  let selectedJobs := st.jobs.filter (fun j => selected.contains j.id)
  let publishable := selectedJobs.filter (fun j => j.result.isSome)
  if publishable.length = 0 then (st, 0, 0)
  else if ¬ connected then (st, 0, 0)
  else
    let st1 : BatchState :=
      { st with jobs := st.jobs.map (fun j =>
          if selected.contains j.id && j.result.isSome then
            { j with publish := { status := .pending, listingId := none, error := none } }
          else j) }
    publishable.foldl (bulkStep outcome) (st1, 0, 0)

/-- Events driving the orchestrator: each is one synchronous block of the
source between suspension points. -/
inductive Ev
  | add (files : List FileDesc)
  | clickStart
  | streamStep (i : Nat) (step : String) (status : StepState)
  | streamDone (i : Nat)
  | settleSuccess (i : Nat) (pkg : ParsedPackage)
  | settleError (i : Nat) (msg : String)
  | settleCancel (i : Nat)
  | cancel (i : Nat) (abortOk : Bool)
  | remove (i : Nat) (abortOk : Bool)
  | publishStart (i : Nat)
  | publishSettle (i : Nat) (outcome : PubOutcome)
  | publishBulk (selected : List Nat) (connected : Bool) (outcome : Nat → PubOutcome)
  | reset

/-- Apply one event to the orchestrator state. -/
def stepEv (st : BatchState) : Ev → BatchState
  | .add files => addFiles st files
  | .clickStart => startQueued st
  | .streamStep i step status => onStreamStep st i step status
  | .streamDone i => onStreamDone st i
  | .settleSuccess i pkg => settleSuccess st i pkg
  | .settleError i msg => settleError st i msg
  | .settleCancel i => settleCancel st i
  | .cancel i abortOk => cancelJob st i abortOk
  | .remove i abortOk => removeJob st i abortOk
  | .publishStart i => publishOneStart st i
  | .publishSettle i outcome => publishOneSettle st i outcome
  | .publishBulk selected connected outcome => (bulkPublishDrafts st selected connected outcome).1
  | .reset => resetAll st

/-- Run an event trace from the initial component state. -/
def run (evs : List Ev) : BatchState :=
  evs.foldl stepEv initState

/-! Basic lemmas about the registry update combinator. -/

lemma updId_map_id (l : List Job) (i : Nat) (g : Job → Job)
    (hg : ∀ j, (g j).id = j.id) :
    (updId l i g).map Job.id = l.map Job.id := by
  unfold updId
  rw [List.map_map]
  apply List.map_congr_left
  intro j _
  by_cases h : j.id = i <;> simp [Function.comp, h, hg]

lemma mem_updId {l : List Job} {i : Nat} {g : Job → Job} {x : Job}
    (hx : x ∈ updId l i g) :
    ∃ j ∈ l, x = if j.id = i then g j else j := by
  unfold updId at hx
  obtain ⟨j, hj, hje⟩ := List.mem_map.mp hx
  exact ⟨j, hj, hje.symm⟩

lemma updId_prop {l : List Job} {i : Nat} {g : Job → Job}
    (P : Job → Prop)
    (hP : ∀ j, j.id = i → P (g j)) :
    ∀ x ∈ updId l i g, x.id = i → P x := by
  intro x hx hxi
  obtain ⟨j, hj, hje⟩ := mem_updId hx
  by_cases h : j.id = i
  · rw [hje, if_pos h]
    exact hP j h
  · rw [hje, if_neg h] at hxi
    exact absurd hxi h

lemma updId_ne_mem {l : List Job} {i : Nat} {g : Job → Job}
    (hg : ∀ j, (g j).id = j.id) :
    ∀ x ∈ updId l i g, x.id ≠ i → x ∈ l := by
  intro x hx hxi
  obtain ⟨j, hj, hje⟩ := mem_updId hx
  by_cases h : j.id = i
  · rw [hje, if_pos h] at hxi
    rw [hg j] at hxi
    exact absurd h hxi
  · rw [hje, if_neg h]
    exact hj

lemma countP_updId_le_of_imp (l : List Job) (i : Nat) (g : Job → Job) (p : Job → Bool)
    (h : ∀ x, p (g x) = true → p x = true) :
    (updId l i g).countP p ≤ l.countP p := by
  unfold updId
  induction l with
  | nil => simp
  | cons a t ih =>
    simp only [List.map_cons, List.countP_cons]
    have hhead : (if p (if a.id = i then g a else a) then 1 else 0) ≤ (if p a then 1 else 0) := by
      by_cases hai : a.id = i
      · by_cases hpa : p (g a) = true
        · simp [hai, hpa, h a hpa]
        · simp [hai, hpa]
      · simp [hai]
    omega

lemma countP_updId_le_succ (l : List Job) (i : Nat) (g : Job → Job) (p : Job → Bool)
    (hN : (l.map Job.id).Nodup) :
    (updId l i g).countP p ≤ l.countP p + 1 := by
  unfold updId
  induction l with
  | nil => simp
  | cons a t ih =>
    simp only [List.map_cons, List.nodup_cons] at hN
    obtain ⟨hna, hnt⟩ := hN
    simp only [List.map_cons, List.countP_cons]
    by_cases hai : a.id = i
    · have ht : t.map (fun j => if j.id = i then g j else j) = t := by
        have := List.map_congr_left (l := t)
          (f := fun j => if j.id = i then g j else j) (g := id) ?_
        · simpa using this
        · intro j hj
          have hji : j.id ≠ i := by
            intro he
            have hja : j.id = a.id := he.trans hai.symm
            exact hna (by rw [← hja]; exact List.mem_map_of_mem Job.id hj)
          simp [hji]
      rw [ht, if_pos hai]
      have h1 : (if p (g a) then 1 else 0) ≤ 1 := by
        split <;> omega
      omega
    · have h2 : (if p (if a.id = i then g a else a) then 1 else 0) = (if p a then 1 else 0) := by
        simp [hai]
      have h3 := ih hnt
      omega

lemma countRunning_eq_countP (l : List Job) :
    countRunning l = l.countP (fun j => decide (j.status = JobStatus.running)) := by
  simp [countRunning, List.countP_eq_length_filter]

lemma countP_map_le_gen {α : Type} (l : List α) (f : α → α) (p : α → Bool)
    (h : ∀ x, p (f x) = true → p x = true) :
    (l.map f).countP p ≤ l.countP p := by
  induction l with
  | nil => simp
  | cons a t ih =>
    simp only [List.map_cons, List.countP_cons]
    have hhead : (if p (f a) then 1 else 0) ≤ (if p a then 1 else 0) := by
      by_cases hpa : p (f a) = true
      · simp [hpa, h a hpa]
      · simp [hpa]
    omega

lemma map_map_id_gen {α β : Type} (l : List α) (f : α → α) (pr : α → β)
    (h : ∀ x, pr (f x) = pr x) :
    (l.map f).map pr = l.map pr := by
  rw [List.map_map]
  exact List.map_congr_left (fun a _ => h a)

/-! Inductive invariant carrying the concurrency ceiling. -/

/-- Ids of the jobs of a registry, in order. -/
def idsOf (l : List Job) : List Nat := l.map Job.id

/-- Inductive invariant of reachable orchestrator states: job ids are below
the fresh counter and distinct, and at most CONCURRENCY jobs run. -/
def Inv (st : BatchState) : Prop :=
  (∀ x ∈ idsOf st.jobs, x < st.nextId) ∧ (idsOf st.jobs).Nodup ∧
    countRunning st.jobs ≤ CONCURRENCY

lemma inv_mono (st st2 : BatchState) (h : Inv st)
    (hids : idsOf st2.jobs = idsOf st.jobs)
    (hn : st.nextId ≤ st2.nextId)
    (hc : countRunning st2.jobs ≤ countRunning st.jobs) : Inv st2 := by
  obtain ⟨hb, hN, hcnt⟩ := h
  refine ⟨?_, ?_, ?_⟩
  · intro x hx
    rw [hids] at hx
    exact lt_of_lt_of_le (hb x hx) hn
  · rw [hids]; exact hN
  · exact le_trans hc hcnt

lemma startJob_ids (st : BatchState) (i : Nat) :
    idsOf (startJob st i).jobs = idsOf st.jobs := by
  unfold startJob
  split
  · rfl
  · exact updId_map_id _ _ _ (fun j => rfl)

lemma startJob_nextId_le (st : BatchState) (i : Nat) :
    st.nextId ≤ (startJob st i).nextId := by
  unfold startJob
  split <;> simp

lemma startJob_count_le (st : BatchState) (i : Nat)
    (hN : (idsOf st.jobs).Nodup) :
    countRunning (startJob st i).jobs ≤ countRunning st.jobs + 1 := by
  unfold startJob
  split
  · omega
  · simp only [countRunning_eq_countP]
    exact countP_updId_le_succ _ _ _ _ hN

lemma startJobs_ids (st : BatchState) (ids : List Nat) :
    idsOf (startJobs st ids).jobs = idsOf st.jobs := by
  induction ids generalizing st with
  | nil => rfl
  | cons a t ih =>
    show idsOf (startJobs (startJob st a) t).jobs = idsOf st.jobs
    rw [ih, startJob_ids]

lemma startJobs_nextId_le (st : BatchState) (ids : List Nat) :
    st.nextId ≤ (startJobs st ids).nextId := by
  induction ids generalizing st with
  | nil => exact le_refl _
  | cons a t ih =>
    exact le_trans (startJob_nextId_le st a) (ih (startJob st a))

lemma startJobs_count_le (st : BatchState) (ids : List Nat)
    (hN : (idsOf st.jobs).Nodup) :
    countRunning (startJobs st ids).jobs ≤ countRunning st.jobs + ids.length := by
  induction ids generalizing st with
  | nil => simp [startJobs]
  | cons a t ih =>
    show countRunning (startJobs (startJob st a) t).jobs ≤ _
    have h1 := ih (startJob st a) (by rw [startJob_ids]; exact hN)
    have h2 := startJob_count_le st a hN
    simp only [List.length_cons]
    omega

lemma startQueued_inv (st : BatchState) (h : Inv st) : Inv (startQueued st) := by
  obtain ⟨hb, hN, hc⟩ := h
  simp only [startQueued]
  refine ⟨?_, ?_, ?_⟩
  · intro x hx
    rw [startJobs_ids] at hx
    exact lt_of_lt_of_le (hb x hx) (startJobs_nextId_le st _)
  · rw [startJobs_ids]; exact hN
  · have hlen :
        ((((st.jobs.filter (fun j => decide (j.status = JobStatus.queued))).take
            (CONCURRENCY - max (countRunning st.jobs) st.starting.length)).map Job.id)).length ≤
          CONCURRENCY - max (countRunning st.jobs) st.starting.length := by
      simp [List.length_take]
    have hcnt := startJobs_count_le st
      ((((st.jobs.filter (fun j => decide (j.status = JobStatus.queued))).take
          (CONCURRENCY - max (countRunning st.jobs) st.starting.length)).map Job.id)) hN
    have hsub : CONCURRENCY - max (countRunning st.jobs) st.starting.length ≤
        CONCURRENCY - countRunning st.jobs :=
      Nat.sub_le_sub_left (le_max_left _ _) _
    omega

lemma scheduleNext_eq_startQueued : scheduleNext = startQueued := rfl

lemma addFile1_inv (st : BatchState) (f : FileDesc) (h : Inv st) :
    Inv (addFile1 st f) := by
  unfold addFile1
  cases hv : validate f with
  | some e => exact h
  | none =>
    show Inv
      { st with jobs := st.jobs ++ [mkJob st.nextId f st.options], nextId := st.nextId + 1 }
    obtain ⟨hb, hN, hc⟩ := h
    refine ⟨?_, ?_, ?_⟩
    · intro x hx
      simp only [idsOf, List.map_append, List.map_cons, List.map_nil, List.mem_append,
        List.mem_singleton] at hx
      rcases hx with hx | hx
      · exact lt_trans (hb x hx) (Nat.lt_succ_self _)
      · show x < st.nextId + 1
        simp only [mkJob] at hx
        omega
    · simp only [idsOf, List.map_append, List.map_cons, List.map_nil]
      rw [List.nodup_append]
      refine ⟨hN, List.nodup_singleton _, ?_⟩
      intro x hx hx2
      simp only [mkJob, List.mem_singleton] at hx2
      have := hb x hx
      omega
    · simp only [countRunning, List.filter_append]
      have hemp : (([mkJob st.nextId f st.options]).filter
          (fun j => decide (j.status = JobStatus.running))) = [] := by
        simp [mkJob]
      rw [hemp]
      simpa using hc

lemma addFiles_inv (st : BatchState) (files : List FileDesc) (h : Inv st) :
    Inv (addFiles st files) := by
  induction files generalizing st with
  | nil => exact h
  | cons f t ih =>
    show Inv (addFiles (addFile1 st f) t)
    exact ih (addFile1 st f) (addFile1_inv st f h)

lemma idsOf_updId (l : List Job) (i : Nat) (g : Job → Job)
    (hg : ∀ j, (g j).id = j.id) :
    idsOf (updId l i g) = idsOf l :=
  updId_map_id l i g hg

lemma countRunning_updId_le (l : List Job) (i : Nat) (g : Job → Job)
    (hg : ∀ x, (g x).status = JobStatus.running → x.status = JobStatus.running) :
    countRunning (updId l i g) ≤ countRunning l := by
  simp only [countRunning_eq_countP]
  refine countP_updId_le_of_imp _ _ _ _ ?_
  intro x hx
  rw [decide_eq_true_eq] at hx ⊢
  exact hg x hx

lemma settleSuccess_inv (st : BatchState) (i : Nat) (pkg : ParsedPackage) (h : Inv st) :
    Inv (settleSuccess st i pkg) := by
  simp only [settleSuccess]
  rw [scheduleNext_eq_startQueued]
  apply startQueued_inv
  apply inv_mono st _ h
  · show idsOf (updId (updId st.jobs i _) i _) = idsOf st.jobs
    rw [idsOf_updId, idsOf_updId]
    all_goals exact fun j => rfl
  · exact le_refl _
  · show countRunning (updId (updId st.jobs i _) i _) ≤ countRunning st.jobs
    refine le_trans (countRunning_updId_le _ _ _ ?_) (countRunning_updId_le _ _ _ ?_)
    · intro x hx; exact hx
    · intro x hx; exact absurd hx (by simp)

lemma settleError_inv (st : BatchState) (i : Nat) (msg : String) (h : Inv st) :
    Inv (settleError st i msg) := by
  simp only [settleError]
  rw [scheduleNext_eq_startQueued]
  apply startQueued_inv
  apply inv_mono st _ h
  · show idsOf (updId (updId st.jobs i _) i _) = idsOf st.jobs
    rw [idsOf_updId, idsOf_updId]
    all_goals exact fun j => rfl
  · exact le_refl _
  · show countRunning (updId (updId st.jobs i _) i _) ≤ countRunning st.jobs
    refine le_trans (countRunning_updId_le _ _ _ ?_) (countRunning_updId_le _ _ _ ?_)
    · intro x hx; exact hx
    · intro x hx; exact absurd hx (by simp)

lemma settleCancel_inv (st : BatchState) (i : Nat) (h : Inv st) :
    Inv (settleCancel st i) := by
  simp only [settleCancel]
  rw [scheduleNext_eq_startQueued]
  apply startQueued_inv
  apply inv_mono st _ h
  · show idsOf (updId (updId st.jobs i _) i _) = idsOf st.jobs
    rw [idsOf_updId, idsOf_updId]
    all_goals exact fun j => rfl
  · exact le_refl _
  · show countRunning (updId (updId st.jobs i _) i _) ≤ countRunning st.jobs
    refine le_trans (countRunning_updId_le _ _ _ ?_) (countRunning_updId_le _ _ _ ?_)
    · intro x hx; exact hx
    · intro x hx; exact absurd hx (by simp)

lemma cancelJob_inv (st : BatchState) (i : Nat) (b : Bool) (h : Inv st) :
    Inv (cancelJob st i b) := by
  unfold cancelJob
  cases hfind : st.jobs.find? (fun j => decide (j.id = i)) with
  | none => exact h
  | some j =>
    by_cases hs : j.status = JobStatus.running
    · simp only [if_pos hs]
      cases hr : j.rid with
      | none => exact h
      | some r =>
        apply inv_mono st _ h
        · show idsOf (updId st.jobs i _) = idsOf st.jobs
          rw [idsOf_updId]
          exact fun j => rfl
        · exact le_refl _
        · show countRunning (updId st.jobs i _) ≤ countRunning st.jobs
          refine countRunning_updId_le _ _ _ ?_
          intro x hx
          exact absurd hx (by simp)
    · simp only [if_neg hs]
      exact h

lemma removeJob_inv (st : BatchState) (i : Nat) (b : Bool) (h : Inv st) :
    Inv (removeJob st i b) := by
  obtain ⟨hb, hN, hc⟩ := h
  simp only [removeJob]
  have hsub : List.Sublist (st.jobs.filter (fun x => decide (x.id ≠ i))) st.jobs :=
    List.filter_sublist _
  refine ⟨?_, ?_, ?_⟩
  · intro x hx
    simp only [idsOf] at hx ⊢
    exact hb x ((hsub.map Job.id).mem hx)
  · exact List.Nodup.sublist (hsub.map Job.id) hN
  · simp only [countRunning_eq_countP] at hc ⊢
    exact le_trans (hsub.countP_le _) hc

lemma resetAll_inv (st : BatchState) : Inv (resetAll st) := by
  refine ⟨?_, ?_, ?_⟩ <;> simp [resetAll, idsOf, countRunning]

lemma onStreamStep_inv (st : BatchState) (i : Nat) (sk : String) (ss : StepState)
    (h : Inv st) : Inv (onStreamStep st i sk ss) := by
  unfold onStreamStep
  split
  · exact h
  · apply inv_mono st _ h
    · show idsOf (updId st.jobs i _) = idsOf st.jobs
      rw [idsOf_updId]
      exact fun j => rfl
    · exact le_refl _
    · show countRunning (updId st.jobs i _) ≤ countRunning st.jobs
      refine countRunning_updId_le _ _ _ ?_
      intro x hx
      exact hx

lemma onStreamDone_inv (st : BatchState) (i : Nat) (h : Inv st) :
    Inv (onStreamDone st i) := by
  unfold onStreamDone
  apply inv_mono st _ h
  · show idsOf (updId st.jobs i _) = idsOf st.jobs
    rw [idsOf_updId]
    exact fun j => rfl
  · exact le_refl _
  · show countRunning (updId st.jobs i _) ≤ countRunning st.jobs
    refine countRunning_updId_le _ _ _ ?_
    intro x hx
    exact hx

lemma publishOneStart_inv (st : BatchState) (i : Nat) (h : Inv st) :
    Inv (publishOneStart st i) := by
  unfold publishOneStart
  cases hfind : st.jobs.find? (fun j => decide (j.id = i)) with
  | none => exact h
  | some j =>
    by_cases hg : j.status = JobStatus.done ∧ j.result.isSome = true ∧
        j.publish.status ≠ PubStatus.pending
    · simp only [if_pos hg]
      apply inv_mono st _ h
      · show idsOf (updId st.jobs i _) = idsOf st.jobs
        rw [idsOf_updId]
        exact fun j => rfl
      · exact le_refl _
      · show countRunning (updId st.jobs i _) ≤ countRunning st.jobs
        refine countRunning_updId_le _ _ _ ?_
        intro x hx
        exact hx
    · simp only [if_neg hg]
      exact h

lemma publishOneSettle_inv (st : BatchState) (i : Nat) (o : PubOutcome) (h : Inv st) :
    Inv (publishOneSettle st i o) := by
  unfold publishOneSettle
  apply inv_mono st _ h
  · show idsOf (updId st.jobs i _) = idsOf st.jobs
    rw [idsOf_updId]
    exact fun j => rfl
  · exact le_refl _
  · show countRunning (updId st.jobs i _) ≤ countRunning st.jobs
    refine countRunning_updId_le _ _ _ ?_
    intro x hx
    exact hx

lemma bulkStep_state (outcome : Nat → PubOutcome) (acc : BatchState × Nat × Nat) (j : Job) :
    (bulkStep outcome acc j).1 =
      { acc.1 with
        jobs := updId acc.1.jobs j.id (fun x => { x with publish := pubApply (outcome j.id) })
        pubCalls := acc.1.pubCalls ++ [j.id] } := by
  unfold bulkStep
  cases outcome j.id <;> rfl

lemma bulkFold_inv (ps : List Job) (outcome : Nat → PubOutcome)
    (acc : BatchState × Nat × Nat) (h : Inv acc.1) :
    Inv (ps.foldl (bulkStep outcome) acc).1 := by
  induction ps generalizing acc with
  | nil => exact h
  | cons p t ih =>
    show Inv (t.foldl (bulkStep outcome) (bulkStep outcome acc p)).1
    apply ih
    rw [bulkStep_state]
    apply inv_mono acc.1 _ h
    · show idsOf (updId acc.1.jobs p.id _) = idsOf acc.1.jobs
      rw [idsOf_updId]
      exact fun j => rfl
    · exact le_refl _
    · show countRunning (updId acc.1.jobs p.id _) ≤ countRunning acc.1.jobs
      refine countRunning_updId_le _ _ _ ?_
      intro x hx
      exact hx

lemma bulkPublishDrafts_inv (st : BatchState) (selected : List Nat) (connected : Bool)
    (outcome : Nat → PubOutcome) (h : Inv st) :
    Inv (bulkPublishDrafts st selected connected outcome).1 := by
  simp only [bulkPublishDrafts]
  split
  · exact h
  · split
    · exact h
    · apply bulkFold_inv
      apply inv_mono st _ h
      · apply map_map_id_gen
        intro x
        split <;> rfl
      · exact le_refl _
      · simp only [countRunning_eq_countP]
        refine countP_map_le_gen _ _ _ ?_
        intro x hx
        revert hx
        split
        · intro hx; exact hx
        · intro hx; exact hx

lemma initState_inv : Inv initState := by
  refine ⟨?_, ?_, ?_⟩ <;> simp [initState, idsOf, countRunning]

lemma stepEv_inv (st : BatchState) (e : Ev) (h : Inv st) : Inv (stepEv st e) := by
  cases e with
  | add files => exact addFiles_inv st files h
  | clickStart => exact startQueued_inv st h
  | streamStep i sk ss => exact onStreamStep_inv st i sk ss h
  | streamDone i => exact onStreamDone_inv st i h
  | settleSuccess i pkg => exact settleSuccess_inv st i pkg h
  | settleError i msg => exact settleError_inv st i msg h
  | settleCancel i => exact settleCancel_inv st i h
  | cancel i b => exact cancelJob_inv st i b h
  | remove i b => exact removeJob_inv st i b h
  | publishStart i => exact publishOneStart_inv st i h
  | publishSettle i o => exact publishOneSettle_inv st i o h
  | publishBulk sel conn o => exact bulkPublishDrafts_inv st sel conn o h
  | reset => exact resetAll_inv st

lemma run_inv (evs : List Ev) : Inv (run evs) := by
  have hgen : ∀ (l : List Ev) (st : BatchState), Inv st → Inv (l.foldl stepEv st) := by
    intro l
    induction l with
    | nil => intro st h; exact h
    | cons e t ih =>
      intro st h
      exact ih (stepEv st e) (stepEv_inv st e h)
  exact hgen evs initState initState_inv

/-! Concrete inputs for the scenario theorems. -/

/-- A valid input file. -/
def fOk : FileDesc := { name := "a.png", size := 100, type := "image/png" }

/-- A file of a media type outside the accepted list. -/
def fBadType : FileDesc := { name := "b.gif", size := 100, type := "image/gif" }

/-- A file above the 15 MB ceiling. -/
def fTooBig : FileDesc := { name := "c.png", size := 15 * 1024 * 1024 + 1, type := "image/png" }

/-- Five valid files, J1..J5 of the spec scenario. -/
def files5 : List FileDesc := [fOk, fOk, fOk, fOk, fOk]

/-- An archive with no primary image entry. -/
def zipNoImage : List ZipEntry := [{ path := "mockups/a.png", dir := false, size := 5, text := "" }]

/-- An archive holding a primary image, one mockup and a video. -/
def zipFull : List ZipEntry :=
  [{ path := "image/processed.png", dir := false, size := 10, text := "" },
   { path := "mockups/m1.png", dir := false, size := 5, text := "" },
   { path := "video/preview.mp4", dir := false, size := 7, text := "" }]

/-- A fresh URL allocator. -/
def s0 : UrlState := { next := 0, live := [] }

/-- The package parsed from the archive lacking a primary image. -/
def pkgNoImage : ParsedPackage := (parseProcessZip zipNoImage s0).1

/-- The package parsed from the full archive. -/
def pkgFull : ParsedPackage := (parseProcessZip zipFull s0).1

/-- C1: for every sequence of submissions, starts, stream events, request
settlements, publishes, cancellations, removals and resets, the number of
jobs with status running never exceeds the concurrency ceiling N = 3. -/
theorem concurrency_running_le_ceiling (evs : List Ev) :
    countRunning (run evs).jobs ≤ CONCURRENCY :=
  (run_inv evs).2.2

/-- C4 counterexample: submitting five valid files creates five queued jobs
but admits none of them — immediately after submission no job is running,
contradicting the claim that J1, J2, J3 are running at that point
(admission is only attempted by the explicit start action or after a
settlement, which addFiles never invokes). -/
theorem submission_does_not_admit :
    (run [Ev.add files5]).jobs.map (fun j => (j.id, j.status)) =
      [(0, JobStatus.queued), (1, .queued), (2, .queued), (3, .queued), (4, .queued)] ∧
    countRunning (run [Ev.add files5]).jobs = 0 := by
  constructor <;> decide

/-- C4 amended: submitting a valid input only creates a queued job; admission
is attempted by the explicit start action and after each settlement. With
N = 3: after submitting J1..J5 all five are queued; triggering start makes
J1, J2, J3 running with J4, J5 queued; when J2 completes, J4 transitions to
running. -/
theorem admission_on_start_and_completion :
    ((run [Ev.add files5]).jobs.map (fun j => (j.id, j.status)) =
      [(0, JobStatus.queued), (1, .queued), (2, .queued), (3, .queued), (4, .queued)]) ∧
    ((run [Ev.add files5, Ev.clickStart]).jobs.map (fun j => (j.id, j.status)) =
      [(0, JobStatus.running), (1, .running), (2, .running), (3, .queued), (4, .queued)]) ∧
    ((run [Ev.add files5, Ev.clickStart, Ev.settleSuccess 1 pkgFull]).jobs.map
        (fun j => (j.id, j.status)) =
      [(0, JobStatus.running), (1, .done), (2, .running), (3, .running), (4, .queued)]) := by
  refine ⟨?_, ?_, ?_⟩ <;> decide

/-- C8: a file whose media type is not accepted or whose size exceeds the
15 MB ceiling is rejected by validate and addFiles performs no state change
at all; in particular the queued and running counts are unchanged. -/
theorem invalid_file_rejected_no_state_change (st : BatchState) (f : FileDesc)
    (h : f.type ∉ ACCEPTED_TYPES ∨ MAX_BYTES < f.size) :
    (validate f).isSome = true ∧ addFiles st [f] = st ∧
    countQueued (addFiles st [f]).jobs + countRunning (addFiles st [f]).jobs =
      countQueued st.jobs + countRunning st.jobs := by
  have hv : (validate f).isSome = true := by
    unfold validate
    rcases h with h | h
    · have hc : ¬ ACCEPTED_TYPES.contains f.type = true := by
        simpa using h
      rw [if_pos hc]
      rfl
    · by_cases hc : ¬ ACCEPTED_TYPES.contains f.type = true
      · rw [if_pos hc]
        rfl
      · rw [if_neg hc, if_pos h]
        rfl
  have ha : addFiles st [f] = st := by
    show addFile1 st f = st
    unfold addFile1
    obtain ⟨m, hm⟩ := Option.isSome_iff_exists.mp hv
    rw [hm]
  exact ⟨hv, ha, by rw [ha]⟩

/-- C8 witness: the oversized file is rejected from the initial state. -/
theorem invalid_file_rejected_witness :
    (validate fTooBig).isSome = true ∧ addFiles initState [fTooBig] = initState ∧
    countQueued (addFiles initState [fTooBig]).jobs +
        countRunning (addFiles initState [fTooBig]).jobs =
      countQueued initState.jobs + countRunning initState.jobs :=
  invalid_file_rejected_no_state_change initState fTooBig (Or.inr (by decide))

/-- C2 counterexample: a result archive lacking the primary image entry
parses without error into a package with no processedImageUrl, and the
owning job transitions to done (not to error) even though the claim says
the job must transition to error with a parse-attributed message. -/
theorem missing_primary_image_reaches_done :
    pkgNoImage.processedImageUrl = none ∧
    ∀ j ∈ (run [Ev.add [fOk], Ev.clickStart, Ev.settleSuccess 0 pkgNoImage]).jobs,
      j.status = JobStatus.done ∧ j.errMsg = none ∧ j.result = some pkgNoImage := by
  constructor <;> decide

/-- C3 counterexample: a job can reach status done while keys of its
stepOrder still map to pending — the batch page marks the job done from the
request settlement without forcing step statuses, and its done stream event
only closes the stream. -/
theorem done_job_with_pending_steps :
    (run [Ev.add [fOk], Ev.clickStart, Ev.settleSuccess 0 pkgFull]).jobs.map
        (fun j => (j.status, j.stepOrder.contains StepKey.zip,
          recGet j.stepStatus (stepKeyName StepKey.zip))) =
      [(JobStatus.done, true, some StepState.pending)] := by
  decide

/-- C9 counterexample: a step event carrying a key outside the job's
stepOrder is recorded, not ignored — afterwards stepStatus holds the foreign
key, so its key set is not exactly stepOrder. -/
theorem unknown_step_key_recorded :
    (run [Ev.add [fOk], Ev.clickStart,
        Ev.streamStep 0 "bogus" StepState.done]).jobs.map
        (fun j => (recGet j.stepStatus "bogus",
          (j.stepOrder.map stepKeyName).contains "bogus")) =
      [(some StepState.done, false)] := by
  decide

/-! Claim C5: cancellation of a running job. -/

/-- A state with one running job (id 0, rid 1). -/
def stRun : BatchState := run [Ev.add [fOk], Ev.clickStart]

/-- The running job of stRun, written out. -/
def jobRun0 : Job :=
  { id := 0, file := fOk, status := .running, rid := some 1
    stepOrder := [.image, .mockups, .video, .texts, .zip]
    stepStatus := [("image", .started), ("mockups", .pending), ("video", .pending),
                   ("texts", .pending), ("zip", .pending)]
    esOpen := true, result := none, errMsg := none
    publish := { status := .idle, listingId := none, error := none } }

/-- C5: cancelling a running job (one holding a rid) always transitions it to
cancelled — never leaving it running — closes its stream, and issues the
best-effort remote abort; the resulting state is identical whether the abort
call succeeds or fails. -/
theorem cancel_running_always_cancelled (st : BatchState) (i r : Nat) (j : Job) (b bb : Bool)
    (hfind : st.jobs.find? (fun x => decide (x.id = i)) = some j)
    (hrun : j.status = JobStatus.running)
    (hrid : j.rid = some r) :
    (∀ x ∈ (cancelJob st i b).jobs, x.id = i →
        x.status = JobStatus.cancelled ∧ x.esOpen = false) ∧
    (cancelJob st i b).abortCalls = st.abortCalls ++ [r] ∧
    cancelJob st i b = cancelJob st i bb := by
  have hstate : ∀ c : Bool, cancelJob st i c =
      { st with
        abortCalls := st.abortCalls ++ [r]
        jobs := updId st.jobs i (fun x => { x with status := .cancelled, esOpen := false })
        starting := st.starting.filter (fun x => decide (x ≠ i)) } := by
    intro c
    unfold cancelJob
    rw [hfind]
    show (if j.status = JobStatus.running then
          match j.rid with
          | none => st
          | some r2 =>
            { st with
              abortCalls := st.abortCalls ++ abortProcess r2 c
              jobs := updId st.jobs i (fun x => { x with status := .cancelled, esOpen := false })
              starting := st.starting.filter (fun x => decide (x ≠ i)) }
        else st) = _
    rw [if_pos hrun, hrid]
    rfl
  refine ⟨?_, ?_, ?_⟩
  · rw [hstate b]
    exact updId_prop _ (fun y hy => ⟨rfl, rfl⟩)
  · rw [hstate b]
  · rw [hstate b, hstate bb]

/-- C5 witness: cancelling the running job of stRun. -/
theorem cancel_running_witness :
    (∀ x ∈ (cancelJob stRun 0 true).jobs, x.id = 0 →
        x.status = JobStatus.cancelled ∧ x.esOpen = false) ∧
    (cancelJob stRun 0 true).abortCalls = stRun.abortCalls ++ [1] ∧
    cancelJob stRun 0 true = cancelJob stRun 0 false :=
  cancel_running_always_cancelled stRun 0 1 jobRun0 true false (by decide) (by decide)
    (by decide)

/-! Claim C7: the per-job publish single-flight guard. -/

/-- A state with one completed job holding a parsed result. -/
def stDone : BatchState := run [Ev.add [fOk], Ev.clickStart, Ev.settleSuccess 0 pkgFull]

/-- The done job of stDone, written out. -/
def jobDone0 : Job :=
  { id := 0, file := fOk, status := .done, rid := some 1
    stepOrder := [.image, .mockups, .video, .texts, .zip]
    stepStatus := [("image", .started), ("mockups", .pending), ("video", .pending),
                   ("texts", .pending), ("zip", .pending)]
    esOpen := false, result := some pkgFull, errMsg := none
    publish := { status := .idle, listingId := none, error := none } }

/-- The same job while a publish call is pending. -/
def jobPend0 : Job :=
  { jobDone0 with publish := { status := .pending, listingId := none, error := none } }

/-- C7: invoking the per-job publish action while the job's publish status is
pending is rejected with no state change at all (in particular no external
publish call); the first call on an idle done job with a result sets the
publish sub-state to pending and records one external call, and its
successful settlement stores status done with the listing id. -/
theorem publish_single_flight_guard (st : BatchState) (i : Nat) (j : Job)
    (hfind : st.jobs.find? (fun x => decide (x.id = i)) = some j) :
    (j.publish.status = PubStatus.pending → publishOneStart st i = st) ∧
    (j.status = JobStatus.done → j.result.isSome = true → j.publish.status = PubStatus.idle →
      (∀ x ∈ (publishOneStart st i).jobs, x.id = i →
          x.publish = { status := PubStatus.pending, listingId := none, error := none }) ∧
      (publishOneStart st i).pubCalls = st.pubCalls ++ [i] ∧
      ∀ lid, ∀ x ∈ (publishOneSettle (publishOneStart st i) i (PubOutcome.ok lid)).jobs,
          x.id = i →
          x.publish = { status := PubStatus.done, listingId := lid, error := none }) := by
  constructor
  · intro hpend
    unfold publishOneStart
    rw [hfind]
    show (if j.status = JobStatus.done ∧ j.result.isSome = true ∧
            j.publish.status ≠ PubStatus.pending then
          { st with
            jobs := updId st.jobs i (fun x =>
              { x with publish := { status := .pending, listingId := none, error := none } })
            pubCalls := st.pubCalls ++ [i] }
        else st) = st
    rw [if_neg (fun hc => hc.2.2 hpend)]
  · intro hdone hres hidle
    have hguard : j.status = JobStatus.done ∧ j.result.isSome = true ∧
        j.publish.status ≠ PubStatus.pending := by
      refine ⟨hdone, hres, ?_⟩
      rw [hidle]
      intro hcon
      cases hcon
    have hstart : publishOneStart st i =
        { st with
          jobs := updId st.jobs i (fun x =>
            { x with publish := { status := .pending, listingId := none, error := none } })
          pubCalls := st.pubCalls ++ [i] } := by
      unfold publishOneStart
      rw [hfind]
      show (if j.status = JobStatus.done ∧ j.result.isSome = true ∧
              j.publish.status ≠ PubStatus.pending then
            { st with
              jobs := updId st.jobs i (fun x =>
                { x with publish := { status := .pending, listingId := none, error := none } })
              pubCalls := st.pubCalls ++ [i] }
          else st) = _
      rw [if_pos hguard]
    refine ⟨?_, ?_, ?_⟩
    · rw [hstart]
      exact updId_prop _ (fun y hy => rfl)
    · rw [hstart]
    · intro lid
      rw [hstart]
      unfold publishOneSettle
      exact updId_prop _ (fun y hy => rfl)

/-- C7 witness: the guard rejects a second call while pending, and the first
call on the idle done job sets pending. -/
theorem publish_single_flight_witness :
    (publishOneStart (publishOneStart stDone 0) 0 = publishOneStart stDone 0) ∧
    (∀ x ∈ (publishOneStart stDone 0).jobs, x.id = 0 →
        x.publish = { status := PubStatus.pending, listingId := none, error := none }) :=
  ⟨(publish_single_flight_guard (publishOneStart stDone 0) 0 jobPend0 (by decide)).1
      (by decide),
   ((publish_single_flight_guard stDone 0 jobDone0 (by decide)).2 (by decide) (by decide)
      (by decide)).1⟩

/-! Record lemmas shared by the progress-status claims. -/

lemma recGet_recSet_self (m : List (String × StepState)) (k : String) (v : StepState) :
    recGet (recSet m k v) k = some v := by
  induction m with
  | nil => simp [recSet, recGet]
  | cons p rest ih =>
    by_cases h : p.1 = k
    · simp [recSet, recGet, h]
    · simp [recSet, recGet, h, ih]

lemma recGet_recSet_ne (m : List (String × StepState)) (k kk : String) (v : StepState)
    (h : kk ≠ k) :
    recGet (recSet m k v) kk = recGet m kk := by
  have hkkk : ¬ k = kk := fun he => h he.symm
  induction m with
  | nil => simp [recSet, recGet, hkkk]
  | cons p rest ih =>
    by_cases h2 : p.1 = k
    · have h4 : ¬ p.1 = kk := by rw [h2]; exact hkkk
      simp [recSet, recGet, h2, hkkk, h4]
    · by_cases h4 : p.1 = kk
      · simp [recSet, recGet, h2, h4, h]
      · simp [recSet, recGet, h2, h4, h, ih]

lemma recGet_recSet_isSome (m : List (String × StepState)) (k kk : String) (v : StepState)
    (h : (recGet m kk).isSome = true) :
    (recGet (recSet m k v) kk).isSome = true := by
  by_cases hk : kk = k
  · subst hk
    rw [recGet_recSet_self]
    rfl
  · rw [recGet_recSet_ne _ _ _ _ hk]
    exact h

lemma forceAllDone_preserve (steps : List StepKey) (k : String) :
    ∀ m : List (String × StepState), recGet m k = some StepState.done →
      recGet (forceAllDone steps m) k = some StepState.done := by
  induction steps with
  | nil => intro m h; exact h
  | cons s t ih =>
    intro m h
    show recGet (forceAllDone t
        (if recGet m (stepKeyName s) ≠ some StepState.done then
          recSet m (stepKeyName s) .done
        else m)) k = some StepState.done
    apply ih
    by_cases hc : recGet m (stepKeyName s) ≠ some StepState.done
    · rw [if_pos hc]
      by_cases hk : k = stepKeyName s
      · subst hk
        rw [recGet_recSet_self]
      · rw [recGet_recSet_ne _ _ _ _ hk]
        exact h
    · rw [if_neg hc]
      exact h

lemma forceAllDone_mem (steps : List StepKey) (k : StepKey) :
    ∀ m : List (String × StepState), k ∈ steps →
      recGet (forceAllDone steps m) (stepKeyName k) = some StepState.done := by
  induction steps with
  | nil => intro m hk; cases hk
  | cons s t ih =>
    intro m hk
    show recGet (forceAllDone t
        (if recGet m (stepKeyName s) ≠ some StepState.done then
          recSet m (stepKeyName s) .done
        else m)) (stepKeyName k) = some StepState.done
    rcases List.mem_cons.mp hk with rfl | hk2
    · apply forceAllDone_preserve
      by_cases hc : recGet m (stepKeyName k) ≠ some StepState.done
      · rw [if_pos hc, recGet_recSet_self]
      · rw [if_neg hc]
        push_neg at hc
        exact hc
    · exact ih _ hk2

/-- C3 amended: the single-image page's done handler forces every stepOrder
key to done before closing; the batch page's done handler leaves every job's
stepStatus untouched (it only closes the stream), which is why a batch job
can be done with pending steps. -/
theorem force_done_on_stream_done (steps : List StepKey) (m : List (String × StepState))
    (k : StepKey) (hk : k ∈ steps) (st : BatchState) (i : Nat) :
    recGet (forceAllDone steps m) (stepKeyName k) = some StepState.done ∧
    (onStreamDone st i).jobs.map (fun j => (j.id, j.stepStatus)) =
      st.jobs.map (fun j => (j.id, j.stepStatus)) := by
  constructor
  · exact forceAllDone_mem steps k m hk
  · show ((updId st.jobs i _).map _) = _
    apply map_map_id_gen
    intro x
    by_cases hx : x.id = i <;> simp [hx]

/-- C3 amended witness: forcing the default step order from its initial map
marks the zip step done; the batch done event leaves stRun's maps unchanged. -/
theorem force_done_witness :
    recGet (forceAllDone (computeSteps defaultOptions)
        (initStepStatus (computeSteps defaultOptions))) (stepKeyName StepKey.zip) =
      some StepState.done ∧
    (onStreamDone stRun 0).jobs.map (fun j => (j.id, j.stepStatus)) =
      stRun.jobs.map (fun j => (j.id, j.stepStatus)) :=
  force_done_on_stream_done (computeSteps defaultOptions)
    (initStepStatus (computeSteps defaultOptions)) StepKey.zip (by decide) stRun 0

/-! Claim C9 (amended): coverage of stepOrder by the stepStatus keys. -/

/-- Coverage of a job: every key of its stepOrder is present in stepStatus. -/
def Covered (j : Job) : Prop :=
  ∀ k ∈ j.stepOrder, (recGet j.stepStatus (stepKeyName k)).isSome = true

lemma covered_map {l : List Job} {f : Job → Job}
    (hf : ∀ j, Covered j → Covered (f j)) (h : ∀ j ∈ l, Covered j) :
    ∀ x ∈ l.map f, Covered x := by
  intro x hx
  obtain ⟨j, hj, hje⟩ := List.mem_map.mp hx
  exact hje ▸ hf j (h j hj)

lemma covered_updId {l : List Job} {i : Nat} {g : Job → Job}
    (hg : ∀ j, Covered j → Covered (g j)) (h : ∀ j ∈ l, Covered j) :
    ∀ x ∈ updId l i g, Covered x := by
  refine covered_map ?_ h
  intro j hc
  by_cases hji : j.id = i
  · rw [if_pos hji]
    exact hg j hc
  · rw [if_neg hji]
    exact hc

lemma initStepStatus_covers_aux (order : List StepKey) (k : StepKey) :
    ∀ m : List (String × StepState),
      (k ∈ order ∨ (recGet m (stepKeyName k)).isSome = true) →
      (recGet (order.foldl (fun m2 s => recSet m2 (stepKeyName s) .pending) m)
        (stepKeyName k)).isSome = true := by
  induction order with
  | nil =>
    intro m h
    rcases h with h | h
    · cases h
    · exact h
  | cons s t ih =>
    intro m h
    show (recGet (t.foldl _ (recSet m (stepKeyName s) .pending)) _).isSome = true
    apply ih
    rcases h with h | h
    · rcases List.mem_cons.mp h with rfl | h2
      · right
        rw [recGet_recSet_self]
        rfl
      · left
        exact h2
    · right
      exact recGet_recSet_isSome _ _ _ _ h

lemma mkJob_covered (id : Nat) (f : FileDesc) (opts : Options) :
    Covered (mkJob id f opts) := by
  intro k hk
  exact initStepStatus_covers_aux (computeSteps opts) k [] (Or.inl hk)

/-- Coverage invariant of a registry state. -/
def KeysInv (st : BatchState) : Prop := ∀ j ∈ st.jobs, Covered j

lemma addFile1_keys (st : BatchState) (f : FileDesc) (h : KeysInv st) :
    KeysInv (addFile1 st f) := by
  unfold addFile1
  cases hv : validate f with
  | some e => exact h
  | none =>
    intro j hj
    rcases List.mem_append.mp hj with hj | hj
    · exact h j hj
    · rw [List.mem_singleton.mp hj]
      exact mkJob_covered _ _ _

lemma addFiles_keys (st : BatchState) (files : List FileDesc) (h : KeysInv st) :
    KeysInv (addFiles st files) := by
  induction files generalizing st with
  | nil => exact h
  | cons f t ih =>
    show KeysInv (addFiles (addFile1 st f) t)
    exact ih (addFile1 st f) (addFile1_keys st f h)

lemma startJob_keys (st : BatchState) (i : Nat) (h : KeysInv st) :
    KeysInv (startJob st i) := by
  unfold startJob
  split
  · exact h
  · refine covered_updId ?_ h
    intro j hc k hk
    show (recGet
        (if j.stepOrder.contains StepKey.image then recSet j.stepStatus "image" .started
         else j.stepStatus) (stepKeyName k)).isSome = true
    split
    · exact recGet_recSet_isSome _ _ _ _ (hc k hk)
    · exact hc k hk

lemma startJobs_keys (st : BatchState) (ids : List Nat) (h : KeysInv st) :
    KeysInv (startJobs st ids) := by
  induction ids generalizing st with
  | nil => exact h
  | cons a t ih =>
    show KeysInv (startJobs (startJob st a) t)
    exact ih (startJob st a) (startJob_keys st a h)

lemma startQueued_keys (st : BatchState) (h : KeysInv st) : KeysInv (startQueued st) := by
  simp only [startQueued]
  exact startJobs_keys _ _ h

lemma settle_updId2_keys (st : BatchState) (i : Nat) (g1 g2 : Job → Job)
    (hg1 : ∀ j, Covered j → Covered (g1 j)) (hg2 : ∀ j, Covered j → Covered (g2 j))
    (h : KeysInv st) :
    ∀ x ∈ updId (updId st.jobs i g1) i g2, Covered x :=
  covered_updId hg2 (covered_updId hg1 h)

lemma stepEv_keys (st : BatchState) (e : Ev) (h : KeysInv st) : KeysInv (stepEv st e) := by
  cases e with
  | add files => exact addFiles_keys st files h
  | clickStart => exact startQueued_keys st h
  | streamStep i sk ss =>
    show KeysInv (onStreamStep st i sk ss)
    unfold onStreamStep
    split
    · exact h
    · refine covered_updId ?_ h
      intro j hc k hk
      exact recGet_recSet_isSome _ _ _ _ (hc k hk)
  | streamDone i =>
    exact covered_updId (fun j hc => hc) h
  | settleSuccess i pkg =>
    show KeysInv (settleSuccess st i pkg)
    simp only [settleSuccess]
    rw [scheduleNext_eq_startQueued]
    apply startQueued_keys
    exact settle_updId2_keys st i _ _ (fun j hc => hc) (fun j hc => hc) h
  | settleError i msg =>
    show KeysInv (settleError st i msg)
    simp only [settleError]
    rw [scheduleNext_eq_startQueued]
    apply startQueued_keys
    exact settle_updId2_keys st i _ _ (fun j hc => hc) (fun j hc => hc) h
  | settleCancel i =>
    show KeysInv (settleCancel st i)
    simp only [settleCancel]
    rw [scheduleNext_eq_startQueued]
    apply startQueued_keys
    exact settle_updId2_keys st i _ _ (fun j hc => hc) (fun j hc => hc) h
  | cancel i b =>
    show KeysInv (cancelJob st i b)
    unfold cancelJob
    cases hfind : st.jobs.find? (fun j => decide (j.id = i)) with
    | none => exact h
    | some j =>
      by_cases hs : j.status = JobStatus.running
      · simp only [if_pos hs]
        cases hr : j.rid with
        | none => exact h
        | some r => exact covered_updId (fun j hc => hc) h
      · simp only [if_neg hs]
        exact h
  | remove i b =>
    show KeysInv (removeJob st i b)
    simp only [removeJob]
    intro j hj
    exact h j (List.mem_of_mem_filter hj)
  | publishStart i =>
    show KeysInv (publishOneStart st i)
    unfold publishOneStart
    cases hfind : st.jobs.find? (fun j => decide (j.id = i)) with
    | none => exact h
    | some j =>
      by_cases hg : j.status = JobStatus.done ∧ j.result.isSome = true ∧
          j.publish.status ≠ PubStatus.pending
      · simp only [if_pos hg]
        exact covered_updId (fun j hc => hc) h
      · simp only [if_neg hg]
        exact h
  | publishSettle i o =>
    exact covered_updId (fun j hc => hc) h
  | publishBulk sel conn o =>
    show KeysInv (bulkPublishDrafts st sel conn o).1
    simp only [bulkPublishDrafts]
    split
    · exact h
    · split
      · exact h
      · have h1 : KeysInv
            { st with jobs := st.jobs.map (fun j =>
                if sel.contains j.id && j.result.isSome then
                  { j with publish := { status := .pending, listingId := none, error := none } }
                else j) } := by
          refine covered_map ?_ h
          intro j hc
          split
          · exact hc
          · exact hc
        have hfold : ∀ (ps : List Job) (acc : BatchState × Nat × Nat), KeysInv acc.1 →
            KeysInv (ps.foldl (bulkStep o) acc).1 := by
          intro ps
          induction ps with
          | nil => intro acc hacc; exact hacc
          | cons p t ih =>
            intro acc hacc
            show KeysInv (t.foldl (bulkStep o) (bulkStep o acc p)).1
            apply ih
            rw [bulkStep_state]
            exact covered_updId (fun j hc => hc) hacc
        exact hfold _ _ h1
  | reset =>
    intro j hj
    cases hj

lemma run_keys (evs : List Ev) : KeysInv (run evs) := by
  have hgen : ∀ (l : List Ev) (st : BatchState), KeysInv st → KeysInv (l.foldl stepEv st) := by
    intro l
    induction l with
    | nil => intro st h; exact h
    | cons e t ih =>
      intro st h
      exact ih (stepEv st e) (stepEv_keys st e h)
  exact hgen evs initState (fun j hj => by cases hj)

/-- C9 amended: a step event writes stepStatus[step] = status for whatever
nonempty step key it carries — foreign keys are recorded, not ignored — and
in every reachable state the stepStatus keys cover all of stepOrder (the key
set may strictly exceed stepOrder after a foreign-key event, as the
counterexample shows). -/
theorem step_status_covers_step_order :
    (∀ evs : List Ev, ∀ j ∈ (run evs).jobs, ∀ k ∈ j.stepOrder,
      (recGet j.stepStatus (stepKeyName k)).isSome = true) ∧
    (∀ (st : BatchState) (i : Nat) (sk : String) (v : StepState), sk ≠ "" →
      ∀ x ∈ (onStreamStep st i sk v).jobs, x.id = i →
        recGet x.stepStatus sk = some v) := by
  constructor
  · intro evs j hj
    exact run_keys evs j hj
  · intro st i sk v hsk
    unfold onStreamStep
    rw [if_neg hsk]
    exact updId_prop _ (fun y hy => recGet_recSet_self _ _ _)

/-- The queued job created by submitting fOk alone, written out. -/
def jobQueued0 : Job :=
  { id := 0, file := fOk, status := .queued, rid := none
    stepOrder := [.image, .mockups, .video, .texts, .zip]
    stepStatus := [("image", .pending), ("mockups", .pending), ("video", .pending),
                   ("texts", .pending), ("zip", .pending)]
    esOpen := false, result := none, errMsg := none
    publish := { status := .idle, listingId := none, error := none } }

/-- C9 amended witness: coverage on a concrete queued job and the recording
of a concrete foreign step key. -/
theorem step_status_covers_witness :
    (recGet jobQueued0.stepStatus (stepKeyName StepKey.zip)).isSome = true ∧
    (∀ x ∈ (onStreamStep stRun 0 "bogus" StepState.done).jobs, x.id = 0 →
      recGet x.stepStatus "bogus" = some StepState.done) :=
  ⟨step_status_covers_step_order.1 [Ev.add [fOk]] jobQueued0 (by decide) StepKey.zip
      (by decide),
   step_status_covers_step_order.2 stRun 0 "bogus" StepState.done (by decide)⟩

/-! Claim C2 (amended): the primary image is optional for the parser. -/

lemma mockupLoop_processed (entries : List ZipEntry) :
    ∀ (out : ParsedPackage) (s : UrlState),
      (mockupLoop entries out s).1.processedImageUrl = out.processedImageUrl := by
  induction entries with
  | nil => intro out s; rfl
  | cons e rest ih =>
    intro out s
    simp only [mockupLoop]
    split
    · rw [ih]
    · exact ih out s

lemma parseStepVideo_processed (z : List ZipEntry) (acc : ParsedPackage × UrlState) :
    (parseStepVideo z acc).1.processedImageUrl = acc.1.processedImageUrl := by
  unfold parseStepVideo
  cases zipFile z "video/preview.mp4" <;> rfl

lemma parseStepTexts_processed (z : List ZipEntry) (acc : ParsedPackage × UrlState) :
    (parseStepTexts z acc).1.processedImageUrl = acc.1.processedImageUrl := by
  unfold parseStepTexts
  cases zipFile z "texts/etsy_metadata.json" <;> rfl

lemma parseStepManifest_processed (z : List ZipEntry) (acc : ParsedPackage × UrlState) :
    (parseStepManifest z acc).1.processedImageUrl = acc.1.processedImageUrl := by
  unfold parseStepManifest
  cases zipFile z "manifest.json" <;> rfl

lemma parse_processed_none (z : List ZipEntry) (s : UrlState)
    (hz : zipFile z "image/processed.png" = none) :
    (parseProcessZip z s).1.processedImageUrl = none := by
  unfold parseProcessZip
  rw [parseStepManifest_processed, parseStepTexts_processed, parseStepVideo_processed,
    mockupLoop_processed]
  unfold parseStepImage
  rw [hz]
  rfl

lemma startJob_preserve_id_prop (i : Nat) (P : Job → Prop)
    (hPq : ∀ x, P x → x.status ≠ JobStatus.queued)
    (st : BatchState) (a : Nat)
    (h : ∀ x ∈ st.jobs, x.id = i → P x) :
    ∀ x ∈ (startJob st a).jobs, x.id = i → P x := by
  intro x hx hxi
  unfold startJob at hx
  split at hx
  · exact h x hx hxi
  · next hguard =>
    obtain ⟨j, hj, hje⟩ := mem_updId hx
    by_cases hja : j.id = a
    · exfalso
      have hji : j.id = i := by
        rw [hje, if_pos hja] at hxi
        exact hxi
      unfold startJobGuard at hguard
      cases hf : st.jobs.find? (fun y => decide (y.id = a)) with
      | none =>
        have hnone := List.find?_eq_none.mp hf j hj
        simp [hja] at hnone
      | some jj =>
        rw [hf] at hguard
        have hjjm := List.mem_of_find?_eq_some hf
        have hjja : jj.id = a := by
          have := List.find?_some hf
          simpa using this
        have hPjj : P jj := h jj hjjm (hjja.trans (hja.symm.trans hji))
        simp at hguard
        exact hPq jj hPjj hguard.2
    · rw [hje, if_neg hja] at hxi ⊢
      exact h j hj hxi

lemma startJobs_preserve_id_prop (i : Nat) (P : Job → Prop)
    (hPq : ∀ x, P x → x.status ≠ JobStatus.queued) (ids : List Nat) :
    ∀ st : BatchState, (∀ x ∈ st.jobs, x.id = i → P x) →
      ∀ x ∈ (startJobs st ids).jobs, x.id = i → P x := by
  induction ids with
  | nil => intro st h; exact h
  | cons a t ih =>
    intro st h
    show ∀ x ∈ (startJobs (startJob st a) t).jobs, x.id = i → P x
    exact ih (startJob st a) (startJob_preserve_id_prop i P hPq st a h)

lemma settleSuccess_id_prop (st : BatchState) (i : Nat) (pkg : ParsedPackage) :
    ∀ x ∈ (settleSuccess st i pkg).jobs, x.id = i →
      x.status = JobStatus.done ∧ x.result = some pkg := by
  simp only [settleSuccess]
  rw [scheduleNext_eq_startQueued]
  simp only [startQueued]
  refine startJobs_preserve_id_prop i _ ?_ _ _ ?_
  · intro x hx
    rw [hx.1]
    decide
  · intro x hx hxi
    obtain ⟨j, hj, hje⟩ := mem_updId hx
    by_cases hji : j.id = i
    · have hPj := updId_prop
        (fun y => y.status = JobStatus.done ∧ y.result = some pkg)
        (fun y hy => ⟨rfl, rfl⟩) j hj hji
      rw [hje, if_pos hji]
      exact hPj
    · rw [hje, if_neg hji] at hxi
      exact absurd hxi hji

lemma settleError_id_prop (st : BatchState) (i : Nat) (msg : String) :
    ∀ x ∈ (settleError st i msg).jobs, x.id = i →
      x.status = JobStatus.error ∧ x.errMsg = some msg := by
  simp only [settleError]
  rw [scheduleNext_eq_startQueued]
  simp only [startQueued]
  refine startJobs_preserve_id_prop i _ ?_ _ _ ?_
  · intro x hx
    rw [hx.1]
    decide
  · intro x hx hxi
    obtain ⟨j, hj, hje⟩ := mem_updId hx
    by_cases hji : j.id = i
    · have hPj := updId_prop
        (fun y => y.status = JobStatus.error ∧ y.errMsg = some msg)
        (fun y hy => ⟨rfl, rfl⟩) j hj hji
      rw [hje, if_pos hji]
      exact hPj
    · rw [hje, if_neg hji] at hxi
      exact absurd hxi hji

/-- C2 amended: an archive that decodes but lacks the image/processed.png
entry parses into a package with no processedImageUrl, and a successful
settlement with such a package marks the owning job done with that result —
only a rejected processing/parse promise (the settleError path, e.g. a
top-level archive-decoding failure) marks the job error with the thrown
message. -/
theorem parse_missing_primary_optional (z : List ZipEntry) (s : UrlState) (st : BatchState)
    (i : Nat) (msg : String)
    (hz : zipFile z "image/processed.png" = none) :
    (parseProcessZip z s).1.processedImageUrl = none ∧
    (∀ x ∈ (settleSuccess st i (parseProcessZip z s).1).jobs, x.id = i →
        x.status = JobStatus.done ∧ x.result = some (parseProcessZip z s).1) ∧
    (∀ x ∈ (settleError st i msg).jobs, x.id = i →
        x.status = JobStatus.error ∧ x.errMsg = some msg) :=
  ⟨parse_processed_none z s hz, settleSuccess_id_prop st i _, settleError_id_prop st i msg⟩

/-- C2 amended witness: the archive without a primary image, settled on the
running job of stRun. -/
theorem parse_missing_primary_witness :
    (parseProcessZip zipNoImage s0).1.processedImageUrl = none ∧
    (∀ x ∈ (settleSuccess stRun 0 (parseProcessZip zipNoImage s0).1).jobs, x.id = 0 →
        x.status = JobStatus.done ∧ x.result = some (parseProcessZip zipNoImage s0).1) ∧
    (∀ x ∈ (settleError stRun 0 "boom").jobs, x.id = 0 →
        x.status = JobStatus.error ∧ x.errMsg = some "boom") :=
  parse_missing_primary_optional zipNoImage s0 stRun 0 "boom" (by decide)

/-! Claim C6: bulk publish counts and isolation. -/

lemma bulkFold_counts (outcome : Nat → PubOutcome) (ps : List Job) :
    ∀ acc : BatchState × Nat × Nat,
      (ps.foldl (bulkStep outcome) acc).2.1 + (ps.foldl (bulkStep outcome) acc).2.2 =
        acc.2.1 + acc.2.2 + ps.length := by
  induction ps with
  | nil => intro acc; simp
  | cons p t ih =>
    intro acc
    show (t.foldl (bulkStep outcome) (bulkStep outcome acc p)).2.1 +
        (t.foldl (bulkStep outcome) (bulkStep outcome acc p)).2.2 = _
    rw [ih]
    have hstep : (bulkStep outcome acc p).2.1 + (bulkStep outcome acc p).2.2 =
        acc.2.1 + acc.2.2 + 1 := by
      unfold bulkStep
      cases outcome p.id <;> simp <;> omega
    simp only [List.length_cons]
    omega

lemma bulkFold_jobs (outcome : Nat → PubOutcome) (ps : List Job) :
    ∀ acc : BatchState × Nat × Nat,
      (ps.foldl (bulkStep outcome) acc).1.jobs =
        acc.1.jobs.map (fun x =>
          if x.id ∈ ps.map Job.id then { x with publish := pubApply (outcome x.id) }
          else x) := by
  induction ps with
  | nil =>
    intro acc
    simp
  | cons p t ih =>
    intro acc
    show (t.foldl (bulkStep outcome) (bulkStep outcome acc p)).1.jobs = _
    rw [ih, bulkStep_state]
    show ((updId acc.1.jobs p.id _).map _) = _
    unfold updId
    rw [List.map_map]
    apply List.map_congr_left
    intro x _
    by_cases hxp : x.id = p.id <;> by_cases hmem : x.id ∈ t.map Job.id <;>
      simp [Function.comp, hxp, hmem, List.mem_cons]

/-- C6: over the M eligible jobs (selected and holding a result) of a batch
publish with a connected session, the aggregate counters satisfy
ok + ko = M; the final registry is the pointwise map writing each eligible
job's publish sub-state from that job's own outcome only (isolation), and no
job's status field changes. -/
theorem bulk_publish_counts_and_isolation (st : BatchState) (selected : List Nat)
    (outcome : Nat → PubOutcome) (hN : (idsOf st.jobs).Nodup) :
    ((bulkPublishDrafts st selected true outcome).2.1 +
        (bulkPublishDrafts st selected true outcome).2.2 =
      (((st.jobs.filter (fun j => selected.contains j.id)).filter
          (fun j => j.result.isSome))).length) ∧
    ((bulkPublishDrafts st selected true outcome).1.jobs =
      st.jobs.map (fun x =>
        if selected.contains x.id && x.result.isSome then
          { x with publish := pubApply (outcome x.id) }
        else x)) ∧
    ((bulkPublishDrafts st selected true outcome).1.jobs.map (fun j => (j.id, j.status)) =
      st.jobs.map (fun j => (j.id, j.status))) := by
  have hcond_of_mem : ∀ x, x ∈ ((st.jobs.filter (fun j => selected.contains j.id)).filter
      (fun j => j.result.isSome)) ↔
        x ∈ st.jobs ∧ (selected.contains x.id && x.result.isSome) = true := by
    intro x
    rw [List.mem_filter, List.mem_filter, Bool.and_eq_true]
    tauto
  have hjobs : (bulkPublishDrafts st selected true outcome).1.jobs =
      st.jobs.map (fun x =>
        if selected.contains x.id && x.result.isSome then
          { x with publish := pubApply (outcome x.id) }
        else x) := by
    simp only [bulkPublishDrafts]
    split
    · next hlen =>
      rw [List.length_eq_zero] at hlen
      have hnone : ∀ x ∈ st.jobs, ¬ (selected.contains x.id && x.result.isSome) = true := by
        intro x hx hc
        have : x ∈ ((st.jobs.filter (fun j => selected.contains j.id)).filter
            (fun j => j.result.isSome)) := (hcond_of_mem x).mpr ⟨hx, hc⟩
        rw [hlen] at this
        cases this
      show st.jobs = _
      symm
      have := List.map_congr_left (l := st.jobs)
        (f := fun x => if selected.contains x.id && x.result.isSome then
          { x with publish := pubApply (outcome x.id) } else x) (g := id) ?_
      · simpa using this
      · intro x hx
        show (if (selected.contains x.id && x.result.isSome) = true then
            { x with publish := pubApply (outcome x.id) }
          else x) = x
        rw [if_neg (hnone x hx)]
    · split
      · next hconn => exact absurd trivial hconn
      · rw [bulkFold_jobs]
        show ((st.jobs.map _).map _) = _
        rw [List.map_map]
        apply List.map_congr_left
        intro x hx
        simp only [Function.comp]
        by_cases hcond : (selected.contains x.id && x.result.isSome) = true
        · have hxps : x.id ∈ (((st.jobs.filter (fun j => selected.contains j.id)).filter
              (fun j => j.result.isSome))).map Job.id :=
            List.mem_map_of_mem Job.id ((hcond_of_mem x).mpr ⟨hx, hcond⟩)
          rw [if_pos hcond]
          split
          · rfl
          · next h2 => exact absurd hxps h2
        · have hxps : x.id ∉ (((st.jobs.filter (fun j => selected.contains j.id)).filter
              (fun j => j.result.isSome))).map Job.id := by
            intro hmem
            obtain ⟨y, hy, hyid⟩ := List.mem_map.mp hmem
            obtain ⟨hyst, hcy⟩ := (hcond_of_mem y).mp hy
            have hyx : y = x := List.inj_on_of_nodup_map hN hyst hx hyid
            rw [hyx] at hcy
            exact hcond hcy
          rw [if_neg hcond]
          split
          · next h2 => exact absurd h2 hxps
          · rfl
  refine ⟨?_, hjobs, ?_⟩
  · simp only [bulkPublishDrafts]
    split
    · next hlen =>
      show 0 + 0 = _
      omega
    · split
      · next hconn => exact absurd trivial hconn
      · rw [bulkFold_counts]
        simp
  · rw [hjobs]
    rw [List.map_map]
    apply List.map_congr_left
    intro x hx
    simp only [Function.comp]
    split <;> rfl

/-- Outcome function of the C6 witness: job 0 succeeds, others fail. -/
def outcomeW : Nat → PubOutcome :=
  fun i => if i = 0 then PubOutcome.ok (some "L1") else PubOutcome.err "e"

/-- C6 witness: a concrete batch publish over the completed job of stDone. -/
theorem bulk_publish_witness :
    ((bulkPublishDrafts stDone [0] true outcomeW).2.1 +
        (bulkPublishDrafts stDone [0] true outcomeW).2.2 =
      (((stDone.jobs.filter (fun j => [0].contains j.id)).filter
          (fun j => j.result.isSome))).length) ∧
    ((bulkPublishDrafts stDone [0] true outcomeW).1.jobs =
      stDone.jobs.map (fun x =>
        if [0].contains x.id && x.result.isSome then
          { x with publish := pubApply (outcomeW x.id) }
        else x)) ∧
    ((bulkPublishDrafts stDone [0] true outcomeW).1.jobs.map (fun j => (j.id, j.status)) =
      stDone.jobs.map (fun j => (j.id, j.status))) :=
  bulk_publish_counts_and_isolation stDone [0] outcomeW (by decide)

/-! Claim C10: release of the parsed artifact handles. -/

/-- Well-formedness of the allocator state: live handles are distinct and
below the fresh counter. -/
def UrlGood (s : UrlState) : Prop := s.live.Nodup ∧ ∀ u ∈ s.live, u < s.next

lemma urlGood_create (s : UrlState) (h : UrlGood s) : UrlGood (createObjectURL s).2 := by
  obtain ⟨hnd, hb⟩ := h
  constructor
  · refine List.nodup_cons.mpr ⟨?_, hnd⟩
    intro hmem
    exact absurd (hb _ hmem) (lt_irrefl _)
  · intro u hu
    rcases List.mem_cons.mp hu with rfl | hu
    · exact Nat.lt_succ_self _
    · exact lt_trans (hb u hu) (Nat.lt_succ_self _)

lemma mockupLoop_spec (entries : List ZipEntry) :
    ∀ (out : ParsedPackage) (s : UrlState), UrlGood s →
      (∀ u ∈ out.urlsToRevoke, u ∈ s.live) →
      UrlGood (mockupLoop entries out s).2 ∧
      (∀ u ∈ s.live, u ∈ (mockupLoop entries out s).2.live) ∧
      (∀ u ∈ (mockupLoop entries out s).1.urlsToRevoke,
        u ∈ (mockupLoop entries out s).2.live) := by
  induction entries with
  | nil =>
    intro out s hG hout
    exact ⟨hG, fun u hu => hu, hout⟩
  | cons e rest ih =>
    intro out s hG hout
    simp only [mockupLoop]
    split
    · have hG1 : UrlGood (createObjectURL s).2 := urlGood_create s hG
      have hout1 : ∀ u ∈ out.urlsToRevoke ++ [(createObjectURL s).1],
          u ∈ (createObjectURL s).2.live := by
        intro u hu
        rcases List.mem_append.mp hu with hu | hu
        · exact List.mem_cons_of_mem _ (hout u hu)
        · rw [List.mem_singleton.mp hu]
          exact List.mem_cons_self _ _
      obtain ⟨hA, hC, hD⟩ := ih
        { out with
          mockups := out.mockups ++
            [{ name := strDrop e.path "mockups/".length
               url := (createObjectURL s).1, size := e.size }]
          urlsToRevoke := out.urlsToRevoke ++ [(createObjectURL s).1] }
        (createObjectURL s).2 hG1 hout1
      refine ⟨hA, ?_, hD⟩
      intro u hu
      exact hC u (List.mem_cons_of_mem _ hu)
    · exact ih out s hG hout

lemma parseStepImage_spec (z : List ZipEntry) (s : UrlState) (hG : UrlGood s) :
    UrlGood (parseStepImage z s).2 ∧
    (∀ u ∈ s.live, u ∈ (parseStepImage z s).2.live) ∧
    (∀ u ∈ (parseStepImage z s).1.urlsToRevoke, u ∈ (parseStepImage z s).2.live) := by
  unfold parseStepImage
  cases zipFile z "image/processed.png" with
  | none =>
    refine ⟨hG, fun u hu => hu, ?_⟩
    intro u hu
    cases hu
  | some e =>
    refine ⟨urlGood_create s hG, ?_, ?_⟩
    · intro u hu
      exact List.mem_cons_of_mem _ hu
    · intro u hu
      rw [List.mem_singleton.mp hu]
      exact List.mem_cons_self _ _

lemma parseStepVideo_spec (z : List ZipEntry) (acc : ParsedPackage × UrlState)
    (hG : UrlGood acc.2) (hmem : ∀ u ∈ acc.1.urlsToRevoke, u ∈ acc.2.live) :
    UrlGood (parseStepVideo z acc).2 ∧
    (∀ u ∈ acc.2.live, u ∈ (parseStepVideo z acc).2.live) ∧
    (∀ u ∈ (parseStepVideo z acc).1.urlsToRevoke, u ∈ (parseStepVideo z acc).2.live) := by
  unfold parseStepVideo
  cases zipFile z "video/preview.mp4" with
  | none => exact ⟨hG, fun u hu => hu, hmem⟩
  | some e =>
    refine ⟨urlGood_create _ hG, ?_, ?_⟩
    · intro u hu
      exact List.mem_cons_of_mem _ hu
    · intro u hu
      rcases List.mem_append.mp hu with hu | hu
      · exact List.mem_cons_of_mem _ (hmem u hu)
      · rw [List.mem_singleton.mp hu]
        exact List.mem_cons_self _ _

lemma parseStepTexts_state (z : List ZipEntry) (acc : ParsedPackage × UrlState) :
    (parseStepTexts z acc).2 = acc.2 := by
  unfold parseStepTexts
  cases zipFile z "texts/etsy_metadata.json" <;> rfl

lemma parseStepTexts_urls (z : List ZipEntry) (acc : ParsedPackage × UrlState) :
    (parseStepTexts z acc).1.urlsToRevoke = acc.1.urlsToRevoke := by
  unfold parseStepTexts
  cases zipFile z "texts/etsy_metadata.json" <;> rfl

lemma parseStepManifest_state (z : List ZipEntry) (acc : ParsedPackage × UrlState) :
    (parseStepManifest z acc).2 = acc.2 := by
  unfold parseStepManifest
  cases zipFile z "manifest.json" <;> rfl

lemma parseStepManifest_urls (z : List ZipEntry) (acc : ParsedPackage × UrlState) :
    (parseStepManifest z acc).1.urlsToRevoke = acc.1.urlsToRevoke := by
  unfold parseStepManifest
  cases zipFile z "manifest.json" <;> rfl

lemma parseProcessZip_spec (z : List ZipEntry) (s : UrlState) (hG : UrlGood s) :
    UrlGood (parseProcessZip z s).2 ∧
    (∀ u ∈ (parseProcessZip z s).1.urlsToRevoke, u ∈ (parseProcessZip z s).2.live) := by
  unfold parseProcessZip
  rw [parseStepManifest_state, parseStepTexts_state, parseStepManifest_urls,
    parseStepTexts_urls]
  obtain ⟨g1, l1, m1⟩ := parseStepImage_spec z s hG
  obtain ⟨g2, l2, m2⟩ :=
    mockupLoop_spec z (parseStepImage z s).1 (parseStepImage z s).2 g1 m1
  obtain ⟨g3, l3, m3⟩ := parseStepVideo_spec z
    (mockupLoop z (parseStepImage z s).1 (parseStepImage z s).2) g2 m2
  exact ⟨g3, m3⟩

lemma revokeObjectURL_not_mem (u : Nat) (s : UrlState) (h : u ∉ s.live) :
    revokeObjectURL u s = s := by
  unfold revokeObjectURL
  rw [List.erase_of_not_mem h]

lemma foldRevoke_live (urls : List Nat) :
    ∀ s : UrlState, s.live.Nodup →
      (urls.foldl (fun acc u => revokeObjectURL u acc) s).live =
        s.live.filter (fun v => !(urls.contains v)) := by
  induction urls with
  | nil =>
    intro s h
    simp
  | cons u t ih =>
    intro s h
    show (t.foldl _ (revokeObjectURL u s)).live = _
    rw [ih (revokeObjectURL u s) (List.Nodup.erase u h)]
    show (s.live.erase u).filter _ = _
    rw [List.Nodup.erase_eq_filter h, List.filter_filter]
    apply List.filter_congr
    intro v hv
    by_cases hvu : v = u <;> by_cases hvt : v ∈ t <;> simp [hvu, hvt]

lemma foldRevoke_of_not_mem (urls : List Nat) :
    ∀ s : UrlState, (∀ u ∈ urls, u ∉ s.live) →
      urls.foldl (fun acc u => revokeObjectURL u acc) s = s := by
  induction urls with
  | nil =>
    intro s h
    rfl
  | cons u t ih =>
    intro s h
    show t.foldl _ (revokeObjectURL u s) = s
    rw [revokeObjectURL_not_mem u s (h u (List.mem_cons_self u t))]
    exact ih s (fun v hv => h v (List.mem_cons_of_mem u hv))

/-- C10: every resource handle the parse produced is live after the parse
and no longer live after the first release(); a second release() is a safe
no-op — each of its revocations acts on an already-freed handle and does
nothing, so the state is exactly the one after the first call and no handle
is ever freed twice. -/
theorem release_idempotent_frees_once (z : List ZipEntry) (s : UrlState) (hG : UrlGood s) :
    (∀ u ∈ (parseProcessZip z s).1.urlsToRevoke, u ∈ (parseProcessZip z s).2.live) ∧
    (∀ u ∈ (parseProcessZip z s).1.urlsToRevoke,
        u ∉ (release (parseProcessZip z s).1 (parseProcessZip z s).2).live) ∧
    release (parseProcessZip z s).1
        (release (parseProcessZip z s).1 (parseProcessZip z s).2) =
      release (parseProcessZip z s).1 (parseProcessZip z s).2 := by
  obtain ⟨hg2, hmem⟩ := parseProcessZip_spec z s hG
  have hafter : ∀ u ∈ (parseProcessZip z s).1.urlsToRevoke,
      u ∉ (release (parseProcessZip z s).1 (parseProcessZip z s).2).live := by
    intro u hu
    unfold release
    rw [foldRevoke_live _ _ hg2.1]
    intro hmem2
    rw [List.mem_filter] at hmem2
    have hcont : (parseProcessZip z s).1.urlsToRevoke.contains u = true := by
      simpa using hu
    rw [hcont] at hmem2
    simp at hmem2
  refine ⟨hmem, hafter, ?_⟩
  unfold release
  exact foldRevoke_of_not_mem _ _ hafter

/-- C10 witness: the full archive parsed from a fresh allocator. -/
theorem release_idempotent_witness :
    (∀ u ∈ (parseProcessZip zipFull s0).1.urlsToRevoke,
        u ∈ (parseProcessZip zipFull s0).2.live) ∧
    (∀ u ∈ (parseProcessZip zipFull s0).1.urlsToRevoke,
        u ∉ (release (parseProcessZip zipFull s0).1 (parseProcessZip zipFull s0).2).live) ∧
    release (parseProcessZip zipFull s0).1
        (release (parseProcessZip zipFull s0).1 (parseProcessZip zipFull s0).2) =
      release (parseProcessZip zipFull s0).1 (parseProcessZip zipFull s0).2 :=
  release_idempotent_frees_once zipFull s0 ⟨by decide, by decide⟩

end CreatorStudio
